import Mathlib

/-!
Verification development for the imgsort zero-shot image classifier.

The Go source is shallowly embedded: pure functions become Lean functions
over exact rationals (`ℚ` stands for the Go `float32`/`float64` values,
so arithmetic claims are settled in exact arithmetic), Go maps become
association lists with insert-or-overwrite semantics and unique keys,
fallible operations return `Option`.  The opaque collaborators (the ONNX
model invocation, the image decoder, and the regexp pre-tokenizer) are
abstracted as parameters, exactly as the spec treats them.
-/

namespace ImgSort

/-! ## Categorizer (internal/categorizer/categorizer.go) -/

/-- Result of categorizing one image (struct `Result`, categorizer.go). -/
structure Result where
  Path : String
  Category : String
  Confidence : ℚ
  Skipped : Bool
deriving DecidableEq

/-- Internal label of the baseline catch-all prompt (`BaselineCategory`, clip.go). -/
def BaselineCategory : String := "uncategorized"

/-- One step of the best-category scan in `Categorize` (categorizer.go lines 50-58):
the baseline entry is ignored, any other entry replaces the running best when its
score is strictly greater. -/
def bestFold (acc : String × ℚ) (cs : String × ℚ) : String × ℚ :=
  if cs.1 = BaselineCategory then acc
  else if cs.2 > acc.2 then cs else acc

/-- The best real category and its score, starting from `bestCat = ""`,
`bestScore = 0` (categorizer.go lines 48-58).  The list order models the
Go map enumeration order. -/
def bestCategory (scores : List (String × ℚ)) : String × ℚ :=
  scores.foldl bestFold ("", 0)

/-- Go map read `scores[k]` with the zero value `0` as default. -/
def lookupD (scores : List (String × ℚ)) (k : String) : ℚ :=
  match scores.find? (fun kv => kv.1 = k) with
  | some kv => kv.2
  | none => 0

/-- Decision logic for a single successfully classified image
(categorizer.go lines 47-80): skip when the baseline beats the best real
category, skip when below the threshold, otherwise accept. -/
def categorizeOne (path : String) (scores : List (String × ℚ)) (threshold : ℚ) : Result :=
  let best := bestCategory scores
  let baselineScore := lookupD scores BaselineCategory
  if baselineScore ≥ best.2 then ⟨path, "", 0, true⟩
  else if best.2 < threshold then ⟨path, "", 0, true⟩
  else ⟨path, best.1, best.2, false⟩

/-- Function `Categorize` (categorizer.go lines 22-84).  The CLIP session's
`Classify` call is abstracted as `classify`; `none` models a per-image
classification error, which is converted into a skip result (lines 40-45).
An empty category list is the only whole-batch error (lines 29-31). -/
def Categorize (classify : String → Option (List (String × ℚ)))
    (imagePaths : List String) (categories : List String) (threshold : ℚ) :
    Option (List Result) :=
  if categories.length = 0 then none
  else some (imagePaths.map fun p =>
    match classify p with
    | none => ⟨p, "", 0, true⟩
    | some scores => categorizeOne p scores threshold)

/-! ## Tokenizer (internal/model/tokenizer.go) -/

/-- Fixed context length of the CLIP text encoder (`contextLen`, tokenizer.go). -/
def contextLen : Nat := 77

/-- End-of-word suffix appended to the final symbol (`endOfWordSfx`, tokenizer.go). -/
def endOfWordSfx : String := "</w>"

/-- Bytes that map to themselves in CLIP's byte encoder (`isBasicByte`, tokenizer.go). -/
def isBasicByte (n : Nat) : Bool :=
  (33 ≤ n && n ≤ 126) || (161 ≤ n && n ≤ 172) || (174 ≤ n && n ≤ 255)

/-- CLIP's byte-to-unicode table (the `init`-built `byteEncoder`, tokenizer.go):
a basic byte maps to itself, any other byte maps to `256 + n` where `n` counts
the non-basic bytes below it (the running counter of the Go loop). -/
def byteEncoder (b : Nat) : Nat :=
  if isBasicByte b then b
  else 256 + ((List.range b).filter (fun m => !isBasicByte m)).length

/-- Function `encodeBytes` (tokenizer.go): remap every raw UTF-8 byte of the string
through the byte encoder, yielding one unicode character per byte. -/
def encodeBytes (s : String) : List Char :=
  s.toUTF8.toList.map (fun b => Char.ofNat (byteEncoder b.toNat))

/-- Initial BPE word: one single-character symbol per rune, the last symbol
carrying the end-of-word suffix (tokenizer.go lines 125-134). -/
def initWord : List Char → List String
  | [] => []
  | [c] => [String.mk [c] ++ endOfWordSfx]
  | c :: rest => String.mk [c] :: initWord rest

/-- All adjacent symbol pairs of a word, in left-to-right scan order. -/
def adjPairs (w : List String) : List (String × String) :=
  w.zip w.tail

/-- The best-pair scan of `bpe` (tokenizer.go lines 141-152): walk the
adjacent pairs left to right keeping the first pair whose rank is strictly
below the best so far (`bestRank = -1` becomes the `none` accumulator). -/
def findBestAux (ranks : String × String → Option Nat) :
    List (String × String) → Option ((String × String) × Nat) →
    Option ((String × String) × Nat)
  | [], best => best
  | p :: ps, best =>
    match ranks p, best with
    | none, b => findBestAux ranks ps b
    | some r, none => findBestAux ranks ps (some (p, r))
    | some r, some q =>
      if r < q.2 then findBestAux ranks ps (some (p, r))
      else findBestAux ranks ps (some q)

/-- The pair chosen by one iteration of the merge loop, if any. -/
def findBestPair (ranks : String × String → Option Nat) (w : List String) :
    Option (String × String) :=
  (findBestAux ranks (adjPairs w) none).map Prod.fst

/-- The merge pass of `bpe` (tokenizer.go lines 159-170): replace every
non-overlapping left-to-right occurrence of the chosen pair by its
concatenation. -/
def mergePair (p : String × String) : List String → List String
  | a :: b :: rest =>
    if a = p.1 ∧ b = p.2 then (p.1 ++ p.2) :: mergePair p rest
    else a :: mergePair p (b :: rest)
  | w => w

/-- The merge loop of `bpe` (tokenizer.go lines 140-175), with explicit
fuel; every productive iteration shortens the word, so fuel equal to the
initial word length always suffices. -/
def bpeLoop (ranks : String × String → Option Nat) : Nat → List String → List String
  | 0, w => w
  | Nat.succ fuel, w =>
    match findBestPair ranks w with
    | none => w
    | some p =>
      let w₂ := mergePair p w
      if w₂.length = 1 then w₂ else bpeLoop ranks fuel w₂

/-- Function `bpe` (tokenizer.go lines 120-178) on the byte-remapped token. -/
def bpe (ranks : String × String → Option Nat) (token : List Char) : List String :=
  if token = [] then []
  else
    let word := initWord token
    if word.length = 1 then word
    else bpeLoop ranks word.length word

/-- The token-id list built by `Encode` before padding (tokenizer.go lines
86-100): start-of-text id, then for every pre-token of the (lowercased,
trimmed) text the vocabulary ids of its BPE symbols — symbols missing from
the vocabulary yield nothing — then the end-of-text id.  The regexp
pre-tokenizer `pat.FindAllString` is abstracted as `pretok` and the
vocabulary map as `encoder`. -/
def rawTokens (pretok : String → List String) (encoder : String → Option Int)
    (ranks : String × String → Option Nat) (sotTokenID eotTokenID : Int)
    (text : String) : List Int :=
  sotTokenID ::
    (((pretok (String.toLower (text.trim))).flatMap
        (fun m => (bpe ranks (encodeBytes m)).filterMap encoder))
      ++ [eotTokenID])

/-- The pad-or-truncate step of `Encode` (tokenizer.go lines 102-107):
a zero-filled buffer of length `contextLen` receives as many ids as fit. -/
def padTokens (tokens : List Int) : List Int :=
  tokens.take contextLen ++ List.replicate (contextLen - tokens.length) 0

/-- Function `Encode` (tokenizer.go lines 85-108). -/
def encode (pretok : String → List String) (encoder : String → Option Int)
    (ranks : String × String → Option Nat) (sotTokenID eotTokenID : Int)
    (text : String) : List Int :=
  padTokens (rawTokens pretok encoder ranks sotTokenID eotTokenID text)

/-! ## Scoring (internal/model/clip.go) -/

/-- Function `softmax` (clip.go lines 159-177), numerically stable: subtract the
running maximum, exponentiate, divide by the sum.  The exponential is
abstracted as `e` (the Go code calls `math.Exp`, which is strictly
positive everywhere — theorems assume exactly that). -/
def softmax (e : ℚ → ℚ) : List ℚ → List ℚ
  | [] => []
  | v :: vs =>
    let mx := vs.foldl (fun m x => if x > m then x else m) v
    let exps := (v :: vs).map (fun x => e (x - mx))
    let sum := exps.foldl (fun a b => a + b) 0
    exps.map (fun x => x / sum)

/-- Go map write `m[k] = v`: overwrite an existing entry for `k`, else
append a fresh one. -/
def mapInsert (m : List (String × ℚ)) (k : String) (v : ℚ) : List (String × ℚ) :=
  if m.any (fun kv => kv.1 = k) then m.map (fun kv => if kv.1 = k then (k, v) else kv)
  else m ++ [(k, v)]

/-- The score map built by `Classify` (clip.go lines 80-148): labels are
the baseline followed by the caller categories, probabilities are the
softmax of the model logits, and the result map is filled label by label
in order.  The opaque ONNX invocation is abstracted by taking its output
`logits` as a parameter (the session's shape contract makes it one logit
per label). -/
def classifyScores (e : ℚ → ℚ) (logits : List ℚ) (categories : List String) :
    List (String × ℚ) :=
  let allLabels := BaselineCategory :: categories
  let probs := softmax e logits
  (allLabels.zip probs).foldl (fun m kv => mapInsert m kv.1 kv.2) []

/-! ## Image preprocessing (internal/model/preprocess.go) -/

/-- Fixed CLIP input resolution (`clipImageSize`, preprocess.go). -/
def clipImageSize : Nat := 224

/-- A decoded Go image: its bounds' minimum corner, its dimensions, and
its `At` method returning 16-bit RGBA samples in `[0, 65535]` (held as
exact rationals). -/
structure GoImage where
  minX : Int
  minY : Int
  width : Nat
  height : Nat
  px : Int → Int → ℚ × ℚ × ℚ × ℚ

/-- Function `centerCrop` (preprocess.go lines 51-76): a square image is returned
unchanged; otherwise the longer dimension is cropped starting at offset
`(difference) / 2` (integer division) and the result is re-anchored at the
origin, reading pixel `(x, y)` from the source at the crop rectangle's
minimum corner plus `(x, y)`. -/
def centerCrop (img : GoImage) : GoImage :=
  if img.width = img.height then img
  else if img.width > img.height then
    let offset : Nat := (img.width - img.height) / 2
    { minX := 0, minY := 0, width := img.height, height := img.height,
      px := fun x y => img.px (img.minX + offset + x) (img.minY + y) }
  else
    let offset : Nat := (img.height - img.width) / 2
    { minX := 0, minY := 0, width := img.width, height := img.width,
      px := fun x y => img.px (img.minX + x) (img.minY + offset + y) }

/-- Go's float-to-uint16 conversion of the interpolated (nonnegative)
sample: truncation. -/
def truncSample (q : ℚ) : ℚ := (Int.floor q : ℚ)

/-- Function `bilinear` (preprocess.go lines 130-133). -/
def bilinear (c00 c10 c01 c11 xFrac yFrac : ℚ) : ℚ :=
  c00 * (1 - xFrac) * (1 - yFrac) + c10 * xFrac * (1 - yFrac) +
    c01 * (1 - xFrac) * yFrac + c11 * xFrac * yFrac

/-- Function `resize` (preprocess.go lines 79-128): the destination is a fresh
`width × height` image anchored at the origin whose pixel `(x, y)` is the
bilinear interpolation of the four neighbouring source samples, with the
second sample index clamped to the source bounds and each channel stored
through the uint16 conversion. -/
def resize (img : GoImage) (width height : Nat) : GoImage :=
  { minX := 0, minY := 0, width := width, height := height,
    px := fun x y =>
      let xRatio : ℚ := (img.width : ℚ) / (width : ℚ)
      let yRatio : ℚ := (img.height : ℚ) / (height : ℚ)
      let srcX : ℚ := (x : ℚ) * xRatio + (img.minX : ℚ)
      let srcY : ℚ := (y : ℚ) * yRatio + (img.minY : ℚ)
      let x0 : Int := Int.floor srcX
      let y0 : Int := Int.floor srcY
      let maxX : Int := img.minX + (img.width : Int)
      let maxY : Int := img.minY + (img.height : Int)
      let x1 : Int := if x0 + 1 ≥ maxX then maxX - 1 else x0 + 1
      let y1 : Int := if y0 + 1 ≥ maxY then maxY - 1 else y0 + 1
      let xFrac : ℚ := srcX - (x0 : ℚ)
      let yFrac : ℚ := srcY - (y0 : ℚ)
      let p00 := img.px x0 y0
      let p10 := img.px x1 y0
      let p01 := img.px x0 y1
      let p11 := img.px x1 y1
      (truncSample (bilinear p00.1 p10.1 p01.1 p11.1 xFrac yFrac),
       truncSample (bilinear p00.2.1 p10.2.1 p01.2.1 p11.2.1 xFrac yFrac),
       truncSample (bilinear p00.2.2.1 p10.2.2.1 p01.2.2.1 p11.2.2.1 xFrac yFrac),
       truncSample (bilinear p00.2.2.2 p10.2.2.2 p01.2.2.2 p11.2.2.2 xFrac yFrac)) }

/-- CLIP normalization constants (`clipMean`, preprocess.go). -/
def meanR : ℚ := 0.48145466
def meanG : ℚ := 0.4578275
def meanB : ℚ := 0.40821073

/-- CLIP normalization constants (`clipStd`, preprocess.go). -/
def stdR : ℚ := 0.26862954
def stdG : ℚ := 0.26130258
def stdB : ℚ := 0.27577711

/-- Red sample of the image at pixel `(x, y)` relative to its bounds. -/
def chanR (img : GoImage) (x y : Nat) : ℚ := (img.px (img.minX + x) (img.minY + y)).1

/-- Green sample of the image at pixel `(x, y)` relative to its bounds. -/
def chanG (img : GoImage) (x y : Nat) : ℚ := (img.px (img.minX + x) (img.minY + y)).2.1

/-- Blue sample of the image at pixel `(x, y)` relative to its bounds. -/
def chanB (img : GoImage) (x y : Nat) : ℚ := (img.px (img.minX + x) (img.minY + y)).2.2.1

/-- Normalization of one channel sample (preprocess.go lines 148-156):
scale the 16-bit sample to `[0, 1]`, subtract the channel mean, divide by
the channel std. -/
def normalize (v mean std : ℚ) : ℚ := (v / 65535 - mean) / std

/-- Function `imageToTensor` (preprocess.go lines 137-161): the flat CHW tensor.
The Go loop writes `tensor[c*h*w + y*w + x]`, so the tensor is the three
channel planes in R, G, B order, plane index `i` holding row `i / w`,
column `i % w`. -/
def imageToTensor (img : GoImage) : List ℚ :=
  let w := img.width
  let h := img.height
  ((List.range (h * w)).map (fun i => normalize (chanR img (i % w) (i / w)) meanR stdR))
    ++ ((List.range (h * w)).map (fun i => normalize (chanG img (i % w) (i / w)) meanG stdG))
    ++ ((List.range (h * w)).map (fun i => normalize (chanB img (i % w) (i / w)) meanB stdB))

/-- Function `PreprocessImage` (preprocess.go lines 28-48) after the opaque decode:
center crop, bilinear resize to `224 × 224`, CHW normalization. -/
def PreprocessTensor (img : GoImage) : List ℚ :=
  imageToTensor (resize (centerCrop img) clipImageSize clipImageSize)

/-! ## Specification predicates for the BPE merge procedure

These predicates follow the spec's words (spec §4.1 step 5): each
iteration merges the adjacent pair with the globally lowest rank, ties
resolved to the first-encountered pair in left-to-right scan order, and
the loop stops exactly when no adjacent pair has a table entry or exactly
one symbol remains. -/

/-- A word is terminal for the merge loop: no adjacent pair has a rank
table entry, or exactly one symbol remains. -/
def Terminal (ranks : String × String → Option Nat) (w : List String) : Prop :=
  (∀ q ∈ adjPairs w, ranks q = none) ∨ w.length = 1

/-- The pair `p` is the merge the spec prescribes on word `w`: it has a
rank, that rank is a lower bound of every ranked adjacent pair, and every
adjacent pair scanned before `p`'s first qualifying occurrence has a
strictly larger rank (first-encountered tie-break). -/
def IsBestPair (ranks : String × String → Option Nat) (w : List String)
    (p : String × String) : Prop :=
  ∃ r, ranks p = some r ∧
    (∃ l₁ l₂, adjPairs w = l₁ ++ p :: l₂ ∧
      ∀ q ∈ l₁, ∀ s, ranks q = some s → r < s) ∧
    (∀ q ∈ adjPairs w, ∀ s, ranks q = some s → r ≤ s)

/-- A run of the spec's merge procedure from `w` to `w₂`: a (possibly
empty) chain of best-pair merges, each taken only at a non-terminal word,
ending at a terminal word. -/
inductive MergeRun (ranks : String × String → Option Nat) :
    List String → List String → Prop
  | done (w : List String) : Terminal ranks w → MergeRun ranks w w
  | step (w w₃ : List String) (p : String × String) :
      ¬ Terminal ranks w → IsBestPair ranks w p →
      MergeRun ranks (mergePair p w) w₃ → MergeRun ranks w w₃

/-! ## Lemmas about the categorizer -/

/-- The best-category fold never exceeds an upper bound of the non-baseline
scores (and of its starting accumulator). -/
lemma bestFold_le (b : ℚ) (l : List (String × ℚ)) :
    ∀ acc : String × ℚ, acc.2 ≤ b →
      (∀ cs ∈ l, cs.1 ≠ BaselineCategory → cs.2 ≤ b) →
      (l.foldl bestFold acc).2 ≤ b := by
  induction l with
  | nil => intro acc hacc _; exact hacc
  | cons cs l ih =>
    intro acc hacc hl
    rw [List.foldl_cons]
    refine ih (bestFold acc cs) ?_ (fun x hx => hl x (List.mem_cons_of_mem _ hx))
    unfold bestFold
    by_cases h1 : cs.1 = BaselineCategory
    · rw [if_pos h1]; exact hacc
    · rw [if_neg h1]
      by_cases h2 : cs.2 > acc.2
      · rw [if_pos h2]; exact hl cs (List.mem_cons_self _ _) h1
      · rw [if_neg h2]; exact hacc

/-- On a map with distinct keys, the Go map read returns the stored value. -/
lemma lookupD_eq_of_mem (scores : List (String × ℚ)) (k : String) (v : ℚ)
    (hnodup : (scores.map Prod.fst).Nodup) (hmem : (k, v) ∈ scores) :
    lookupD scores k = v := by
  induction scores with
  | nil => cases hmem
  | cons kv rest ih =>
    rcases List.mem_cons.mp hmem with rfl | hmem₂
    · simp [lookupD]
    · rw [List.map_cons] at hnodup
      have hnd := List.nodup_cons.mp hnodup
      have hk : ¬ kv.1 = k := by
        intro hk
        exact hnd.1 (hk ▸ List.mem_map_of_mem Prod.fst hmem₂)
      have : lookupD (kv :: rest) k = lookupD rest k := by
        simp [lookupD, List.find?_cons_of_neg, hk]
      rw [this]
      exact ih hnd.2 hmem₂

/-- C2: if the baseline probability is at least every non-baseline category
probability in a (nonnegative, unique-keyed) score map containing the
baseline, `Categorize`'s per-image decision is a skip — no category, no
confidence — for every confidence threshold. -/
theorem baseline_forces_skip (path : String) (scores : List (String × ℚ))
    (threshold b : ℚ)
    (hnodup : (scores.map Prod.fst).Nodup)
    (hmem : (BaselineCategory, b) ∈ scores)
    (hnn : ∀ cs ∈ scores, 0 ≤ cs.2)
    (hdom : ∀ cs ∈ scores, cs.1 ≠ BaselineCategory → cs.2 ≤ b) :
    categorizeOne path scores threshold = ⟨path, "", 0, true⟩ := by
  have hb0 : (0 : ℚ) ≤ b := hnn _ hmem
  have hbest : (bestCategory scores).2 ≤ b :=
    bestFold_le b scores ("", 0) hb0 hdom
  have hlook : lookupD scores BaselineCategory = b :=
    lookupD_eq_of_mem scores BaselineCategory b hnodup hmem
  simp only [categorizeOne]
  rw [hlook, if_pos hbest]

/-- Witness for `baseline_forces_skip` at a concrete score map where the
baseline ties the best category. -/
theorem baseline_forces_skip_witness :
    categorizeOne "img" [("uncategorized", (2 : ℚ)), ("cat", (2 : ℚ))] 0 =
      ⟨"img", "", 0, true⟩ :=
  baseline_forces_skip "img" [("uncategorized", (2 : ℚ)), ("cat", (2 : ℚ))] 0 2
    (by decide) (by decide) (by decide) (by decide)

/-- C5: for a fixed score map, the skip/accept decision is monotone in the
confidence threshold — a skip at a lower threshold stays a skip at any
higher threshold. -/
theorem categorize_threshold_monotone (path : String) (scores : List (String × ℚ))
    (t₁ t₂ : ℚ) (h : t₁ ≤ t₂)
    (hskip : (categorizeOne path scores t₁).Skipped = true) :
    (categorizeOne path scores t₂).Skipped = true := by
  simp only [categorizeOne] at hskip ⊢
  by_cases hb : lookupD scores BaselineCategory ≥ (bestCategory scores).2
  · rw [if_pos hb]
  · rw [if_neg hb] at hskip ⊢
    by_cases ht2 : (bestCategory scores).2 < t₂
    · rw [if_pos ht2]
    · have ht1 : ¬ (bestCategory scores).2 < t₁ :=
        fun hc => ht2 (lt_of_lt_of_le hc h)
      rw [if_neg ht1] at hskip
      exact absurd hskip (by simp)

/-- Witness for `categorize_threshold_monotone`: an image skipped at
threshold `2` stays skipped at threshold `3`. -/
theorem categorize_threshold_monotone_witness :
    (categorizeOne "img" [("uncategorized", (0 : ℚ)), ("cat", (1 : ℚ))] 3).Skipped
      = true :=
  categorize_threshold_monotone "img" [("uncategorized", (0 : ℚ)), ("cat", (1 : ℚ))]
    2 3 (by norm_num) (by decide)

/-- Every branch of the per-image decision carries the image's path. -/
lemma categorizeOne_path (path : String) (scores : List (String × ℚ)) (t : ℚ) :
    (categorizeOne path scores t).Path = path := by
  simp only [categorizeOne]
  split_ifs <;> rfl

/-- C9: with a non-empty category list, `Categorize` succeeds and returns
exactly one result per input path, in input order; an image whose
classification fails yields a skip result with no category and zero
confidence, and every other image is still processed. -/
theorem categorize_one_result_per_path
    (classify : String → Option (List (String × ℚ)))
    (imagePaths categories : List String) (threshold : ℚ)
    (h : categories.length ≠ 0) :
    ∃ rs, Categorize classify imagePaths categories threshold = some rs ∧
      rs.length = imagePaths.length ∧
      ∀ i, i < imagePaths.length →
        (rs.getD i ⟨"", "", 0, false⟩).Path = imagePaths.getD i "" ∧
        (classify (imagePaths.getD i "") = none →
          rs.getD i ⟨"", "", 0, false⟩ = ⟨imagePaths.getD i "", "", 0, true⟩) := by
  refine ⟨imagePaths.map (fun p =>
      match classify p with
      | none => ⟨p, "", 0, true⟩
      | some scores => categorizeOne p scores threshold), ?_, by simp, ?_⟩
  · simp [Categorize, h]
  · intro i hi
    have hp : imagePaths[i]? = some imagePaths[i] := List.getElem?_eq_getElem hi
    have hgd : imagePaths.getD i "" = imagePaths[i] := by
      rw [List.getD_eq_getElem?_getD, hp, Option.getD_some]
    have hrs : (imagePaths.map (fun p =>
        match classify p with
        | none => (⟨p, "", 0, true⟩ : Result)
        | some scores => categorizeOne p scores threshold)).getD i ⟨"", "", 0, false⟩ =
        (match classify imagePaths[i] with
        | none => (⟨imagePaths[i], "", 0, true⟩ : Result)
        | some scores => categorizeOne imagePaths[i] scores threshold) := by
      rw [List.getD_eq_getElem?_getD, List.getElem?_map, hp]
      rfl
    rw [hgd, hrs]
    constructor
    · cases hc : classify imagePaths[i] with
      | none => rfl
      | some scores => exact categorizeOne_path _ _ _
    · intro hc
      rw [hc]

/-- Witness for `categorize_one_result_per_path`: a two-image batch where
the first image fails to classify and the second succeeds. -/
theorem categorize_one_result_per_path_witness :
    ∃ rs, Categorize
        (fun p => if p = "a.jpg" then none else some [("uncategorized", (0 : ℚ)), ("cat", (1 : ℚ))])
        ["a.jpg", "b.jpg"] ["cat"] 0 = some rs ∧
      rs.length = (["a.jpg", "b.jpg"] : List String).length ∧
      ∀ i, i < (["a.jpg", "b.jpg"] : List String).length →
        (rs.getD i ⟨"", "", 0, false⟩).Path = (["a.jpg", "b.jpg"] : List String).getD i "" ∧
        ((fun p => if p = "a.jpg" then none
            else some [("uncategorized", (0 : ℚ)), ("cat", (1 : ℚ))])
              ((["a.jpg", "b.jpg"] : List String).getD i "") = none →
          rs.getD i ⟨"", "", 0, false⟩ =
            ⟨(["a.jpg", "b.jpg"] : List String).getD i "", "", 0, true⟩) :=
  categorize_one_result_per_path
    (fun p => if p = "a.jpg" then none else some [("uncategorized", (0 : ℚ)), ("cat", (1 : ℚ))])
    ["a.jpg", "b.jpg"] ["cat"] 0 (by decide)

/-- The best-category fold keeps an accumulator that no remaining
non-baseline entry strictly beats. -/
lemma bestFold_keep (c : String) (s : ℚ) (l : List (String × ℚ)) :
    (∀ x ∈ l, x.1 ≠ BaselineCategory → x.2 ≤ s) →
    l.foldl bestFold (c, s) = (c, s) := by
  induction l with
  | nil => intro _; rfl
  | cons x l ih =>
    intro hl
    rw [List.foldl_cons]
    have hx : bestFold (c, s) x = (c, s) := by
      unfold bestFold
      by_cases h1 : x.1 = BaselineCategory
      · rw [if_pos h1]
      · rw [if_neg h1, if_neg (not_lt.mpr (hl x (List.mem_cons_self _ _) h1))]
    rw [hx]
    exact ih (fun y hy => hl y (List.mem_cons_of_mem _ hy))

/-- When a unique positive maximizer among the non-baseline entries exists,
the best-category fold reaches exactly it, from any accumulator it beats. -/
lemma bestFold_reach (c : String) (s : ℚ) (hc : c ≠ BaselineCategory)
    (l : List (String × ℚ)) :
    ∀ acc : String × ℚ, acc.2 < s →
      (l.map Prod.fst).Nodup → (c, s) ∈ l →
      (∀ x ∈ l, x.1 ≠ BaselineCategory → x.1 ≠ c → x.2 < s) →
      l.foldl bestFold acc = (c, s) := by
  induction l with
  | nil => intro acc _ _ hmem _; cases hmem
  | cons x l ih =>
    intro acc hacc hnodup hmem hdom
    rw [List.map_cons] at hnodup
    have hnd := List.nodup_cons.mp hnodup
    rw [List.foldl_cons]
    by_cases hx : x = (c, s)
    · subst hx
      have hstep : bestFold acc (c, s) = (c, s) := by
        unfold bestFold
        rw [if_neg hc, if_pos hacc]
      rw [hstep]
      refine bestFold_keep c s l (fun y hy hyb => le_of_lt ?_)
      have hyc : y.1 ≠ c := by
        intro hyc
        have hmm : y.1 ∈ List.map Prod.fst l := List.mem_map_of_mem Prod.fst hy
        rw [hyc] at hmm
        exact hnd.1 hmm
      exact hdom y (List.mem_cons_of_mem _ hy) hyb hyc
    · have hmem₂ : (c, s) ∈ l := (List.mem_cons.mp hmem).resolve_left
        (fun he => hx he.symm)
      have hstep : (bestFold acc x).2 < s := by
        unfold bestFold
        by_cases h1 : x.1 = BaselineCategory
        · rw [if_pos h1]; exact hacc
        · rw [if_neg h1]
          by_cases h2 : x.2 > acc.2
          · rw [if_pos h2]
            have hxc : x.1 ≠ c := by
              intro hxc
              exact hnd.1 (hxc ▸ List.mem_map_of_mem Prod.fst hmem₂)
            exact hdom x (List.mem_cons_self _ _) h1 hxc
          · rw [if_neg h2]; exact hacc
      exact ih (bestFold acc x) hstep hnd.2 hmem₂
        (fun y hy => hdom y (List.mem_cons_of_mem _ hy))

/-- C10: when the maximum probability among non-baseline categories is
attained by exactly one (positive-probability) category, the best-category
selection returns that unique maximizer on any enumeration order of the
score map — here, on any two permutations of its entry list. -/
theorem best_category_unique_max (scores scores₂ : List (String × ℚ))
    (c : String) (s : ℚ)
    (hperm : scores.Perm scores₂)
    (hnodup : (scores.map Prod.fst).Nodup)
    (hc : c ≠ BaselineCategory) (hs : 0 < s)
    (hmem : (c, s) ∈ scores)
    (hdom : ∀ x ∈ scores, x.1 ≠ BaselineCategory → x.1 ≠ c → x.2 < s) :
    bestCategory scores = (c, s) ∧ bestCategory scores₂ = (c, s) := by
  have hnodup₂ : (scores₂.map Prod.fst).Nodup :=
    ((hperm.map Prod.fst).nodup_iff).mp hnodup
  exact ⟨bestFold_reach c s hc scores ("", 0) hs hnodup hmem hdom,
    bestFold_reach c s hc scores₂ ("", 0) hs hnodup₂ (hperm.mem_iff.mp hmem)
      (fun x hx => hdom x (hperm.mem_iff.mpr hx))⟩

/-- Witness for `best_category_unique_max` on two enumeration orders of a
three-entry score map. -/
theorem best_category_unique_max_witness :
    bestCategory [("uncategorized", (1 : ℚ)), ("cat", (3 : ℚ)), ("dog", (1 : ℚ))]
        = ("cat", (3 : ℚ)) ∧
      bestCategory [("dog", (1 : ℚ)), ("uncategorized", (1 : ℚ)), ("cat", (3 : ℚ))]
        = ("cat", (3 : ℚ)) :=
  best_category_unique_max
    [("uncategorized", (1 : ℚ)), ("cat", (3 : ℚ)), ("dog", (1 : ℚ))]
    [("dog", (1 : ℚ)), ("uncategorized", (1 : ℚ)), ("cat", (3 : ℚ))]
    "cat" 3 (by decide) (by decide) (by decide) (by decide) (by decide) (by decide)

/-! ## Center crop -/

/-- C6: `centerCrop` on a square image returns the identical image; on a
non-square image it returns a square of side `min W H` whose pixels are
read from the source shifted by `(difference) / 2` (integer floor
division) along the longer dimension. -/
theorem centerCrop_spec (img : GoImage) :
    (img.width = img.height → centerCrop img = img) ∧
    (img.width ≠ img.height →
      (centerCrop img).width = min img.width img.height ∧
      (centerCrop img).height = min img.width img.height ∧
      (img.height < img.width → ∀ x y : Int,
        (centerCrop img).px x y =
          img.px (img.minX + (((img.width - img.height) / 2 : Nat) : Int) + x)
            (img.minY + y)) ∧
      (img.width < img.height → ∀ x y : Int,
        (centerCrop img).px x y =
          img.px (img.minX + x)
            (img.minY + (((img.height - img.width) / 2 : Nat) : Int) + y))) := by
  constructor
  · intro h
    simp [centerCrop, h]
  · intro h
    by_cases hw : img.width > img.height
    · rw [centerCrop, if_neg h, if_pos hw]
      refine ⟨(min_eq_right (le_of_lt hw)).symm, (min_eq_right (le_of_lt hw)).symm,
        fun _ x y => rfl, fun hlt _ _ => absurd hlt (not_lt.mpr (le_of_lt hw))⟩
    · have hlt : img.width < img.height := lt_of_le_of_ne (not_lt.mp hw) h
      rw [centerCrop, if_neg h, if_neg hw]
      exact ⟨(min_eq_left (le_of_lt hlt)).symm, (min_eq_left (le_of_lt hlt)).symm,
        fun hgt => absurd hgt (not_lt.mpr (le_of_lt hlt)), fun _ x y => rfl⟩

/-- Witness for `centerCrop_spec` on a square image and on a 5×2 image. -/
theorem centerCrop_spec_witness :
    centerCrop ⟨0, 0, 3, 3, fun _ _ => (0, 0, 0, 0)⟩ =
        (⟨0, 0, 3, 3, fun _ _ => (0, 0, 0, 0)⟩ : GoImage) ∧
      (centerCrop ⟨0, 0, 5, 2, fun _ _ => (0, 0, 0, 0)⟩).width = min 5 2 :=
  ⟨(centerCrop_spec ⟨0, 0, 3, 3, fun _ _ => (0, 0, 0, 0)⟩).1 (by decide),
    ((centerCrop_spec ⟨0, 0, 5, 2, fun _ _ => (0, 0, 0, 0)⟩).2 (by decide)).1⟩

/-! ## Tokenizer length and unknown-symbol behavior -/

/-- C4: for every input text (and any pre-tokenizer, vocabulary, rank
table and start/end ids), `Encode` returns exactly `contextLen = 77`
entries: entry `i` is the `i`-th real token id when one exists — ids past
position 77 are silently dropped — and `0` past the real token count. -/
theorem encode_fixed_length (pretok : String → List String)
    (encoder : String → Option Int) (ranks : String × String → Option Nat)
    (sotTokenID eotTokenID : Int) (text : String) :
    (encode pretok encoder ranks sotTokenID eotTokenID text).length = contextLen ∧
    ∀ i, i < contextLen →
      (encode pretok encoder ranks sotTokenID eotTokenID text).getD i 0 =
        (if i < (rawTokens pretok encoder ranks sotTokenID eotTokenID text).length
          then (rawTokens pretok encoder ranks sotTokenID eotTokenID text).getD i 0
          else 0) := by
  set tokens := rawTokens pretok encoder ranks sotTokenID eotTokenID text with htokens
  constructor
  · show (padTokens tokens).length = contextLen
    rw [padTokens, List.length_append, List.length_take, List.length_replicate]
    omega
  · intro i hi
    show (padTokens tokens).getD i 0 = _
    rw [padTokens]
    by_cases hlt : i < tokens.length
    · rw [if_pos hlt]
      have hta : i < (tokens.take contextLen).length := by
        rw [List.length_take]; omega
      rw [List.getD_eq_getElem?_getD, List.getElem?_append_left hta,
        List.getElem?_take_of_lt (show i < contextLen by omega)]
      rw [List.getD_eq_getElem?_getD]
    · rw [if_neg hlt]
      have hta : (tokens.take contextLen).length ≤ i := by
        rw [List.length_take]; omega
      rw [List.getD_eq_getElem?_getD, List.getElem?_append_right hta,
        List.getElem?_replicate]
      have : i - (tokens.take contextLen).length < contextLen - tokens.length := by
        rw [List.length_take]; omega
      rw [if_pos this, Option.getD_some]

/-- Witness for `encode_fixed_length`: a concrete vocabulary in which the
pre-token encodes to the known symbol list `["hi</w>"]`. -/
theorem encode_fixed_length_witness :
    (0 : Nat) < contextLen ∧
      (encode (fun t => [t]) (fun s => if s = "hi</w>" then some 42 else none)
          (fun p => if p = ("h", "i</w>") then some 0 else none) 100 101 "hi").getD 0 0 =
        (if 0 < (rawTokens (fun t => [t]) (fun s => if s = "hi</w>" then some 42 else none)
            (fun p => if p = ("h", "i</w>") then some 0 else none) 100 101 "hi").length
          then (rawTokens (fun t => [t]) (fun s => if s = "hi</w>" then some 42 else none)
            (fun p => if p = ("h", "i</w>") then some 0 else none) 100 101 "hi").getD 0 0
          else 0) :=
  ⟨by decide,
    (encode_fixed_length (fun t => [t]) (fun s => if s = "hi</w>" then some 42 else none)
      (fun p => if p = ("h", "i</w>") then some 0 else none) 100 101 "hi").2 0 (by decide)⟩

/-- Mapping a list through an optional function is the same as keeping the
elements on which it is defined and reading off its values. -/
lemma filterMap_eq_filter_map (f : String → Option Int) (l : List String) :
    l.filterMap f =
      (l.filter (fun s => (f s).isSome)).map (fun s => (f s).getD 0) := by
  induction l with
  | nil => rfl
  | cons a l ih =>
    cases hf : f a with
    | none =>
      rw [List.filterMap_cons_none hf, List.filter_cons_of_neg (by simp [hf]), ih]
    | some b =>
      rw [List.filterMap_cons_some hf, List.filter_cons_of_pos (by simp [hf]),
        List.map_cons, ih, hf]
      rfl

/-- C8: during `Encode`, a merged BPE symbol with no vocabulary entry is
silently dropped — it contributes no token id and no substitute id — while
every symbol with an entry contributes exactly its vocabulary id; the raw
token stream is the start id, then those ids, then the end id. -/
theorem encode_drops_unknown_symbols (pretok : String → List String)
    (encoder : String → Option Int) (ranks : String × String → Option Nat)
    (sotTokenID eotTokenID : Int) (text : String) :
    rawTokens pretok encoder ranks sotTokenID eotTokenID text =
      sotTokenID ::
        (((pretok (String.toLower (text.trim))).flatMap
            (fun m => ((bpe ranks (encodeBytes m)).filter
                (fun s => (encoder s).isSome)).map
              (fun s => (encoder s).getD 0)))
          ++ [eotTokenID]) := by
  rw [rawTokens]
  congr 2
  apply List.flatMap_congr
  intro m _
  exact filterMap_eq_filter_map encoder (bpe ranks (encodeBytes m))

/-! ## Softmax and the score map -/

/-- Left fold of addition starting at `a` is `a` plus the sum. -/
lemma foldl_add_eq_sum (l : List ℚ) : ∀ a : ℚ, l.foldl (fun x y => x + y) a = a + l.sum := by
  induction l with
  | nil => intro a; simp
  | cons b l ih => intro a; rw [List.foldl_cons, ih, List.sum_cons]; ring

/-- Dividing every element by a constant divides the sum. -/
lemma sum_map_div (l : List ℚ) (s : ℚ) : (l.map (fun x => x / s)).sum = l.sum / s := by
  induction l with
  | nil => simp
  | cons a l ih => rw [List.map_cons, List.sum_cons, List.sum_cons, ih, add_div]

/-- Applying `softmax` preserves the number of entries. -/
lemma softmax_length (e : ℚ → ℚ) (l : List ℚ) : (softmax e l).length = l.length := by
  cases l with
  | nil => rfl
  | cons v vs => simp [softmax]

/-- With a strictly positive exponential, `softmax` of a nonempty logit
list sums to exactly `1`. -/
lemma softmax_sum (e : ℚ → ℚ) (hpos : ∀ x, 0 < e x) (l : List ℚ) (hl : l ≠ []) :
    (softmax e l).sum = 1 := by
  cases l with
  | nil => exact absurd rfl hl
  | cons v vs =>
    simp only [softmax]
    rw [foldl_add_eq_sum, zero_add, sum_map_div, div_self]
    apply ne_of_gt
    apply List.sum_pos
    · intro x hx
      obtain ⟨y, _, rfl⟩ := List.mem_map.mp hx
      exact hpos _
    · simp

/-- Filling an empty Go map with uniquely-keyed pairs, in order, yields
exactly those pairs. -/
lemma foldl_mapInsert_nodup (pairs : List (String × ℚ)) :
    ∀ acc : List (String × ℚ),
      ((acc ++ pairs).map Prod.fst).Nodup →
      pairs.foldl (fun m kv => mapInsert m kv.1 kv.2) acc = acc ++ pairs := by
  induction pairs with
  | nil => intro acc _; simp
  | cons kv pairs ih =>
    intro acc hnodup
    have hdisj : ¬ kv.1 ∈ acc.map Prod.fst := by
      rw [List.map_append] at hnodup
      have := (List.nodup_append.mp hnodup).2.2
      intro hmem
      exact this hmem (by simp)
    have hany : ¬ acc.any (fun x => x.1 = kv.1) = true := by
      rw [List.any_eq_true]
      rintro ⟨x, hx, hx1⟩
      exact hdisj (by
        simp only [decide_eq_true_eq] at hx1
        rw [← hx1]
        exact List.mem_map_of_mem Prod.fst hx)
    have hins : mapInsert acc kv.1 kv.2 = acc ++ [kv] := by
      rw [mapInsert, if_neg hany]
    rw [List.foldl_cons, hins]
    have hre : (acc ++ [kv]) ++ pairs = acc ++ kv :: pairs := by simp
    rw [ih (acc ++ [kv]) (by rw [hre]; exact hnodup), hre]

/-- C1 (amended): for every list of `N ≥ 1` pairwise-distinct category
strings none of which equals the baseline label, and every logit vector of
the session's contracted shape (one logit per label), the score map built
by `Classify` has exactly `N + 1` entries and its probabilities sum to `1`
exactly — in particular within the claimed `1e-3`.  (The exponential is
any strictly positive function, as `math.Exp` is.) -/
theorem classify_scores_entries (e : ℚ → ℚ) (logits : List ℚ) (categories : List String)
    (_hN : 1 ≤ categories.length)
    (hnodup : (BaselineCategory :: categories).Nodup)
    (hlen : logits.length = categories.length + 1)
    (hpos : ∀ x, 0 < e x) :
    (classifyScores e logits categories).length = categories.length + 1 ∧
    |((classifyScores e logits categories).map Prod.snd).sum - 1| ≤ 1 / 1000 := by
  have hplen : (softmax e logits).length = (BaselineCategory :: categories).length := by
    rw [softmax_length, hlen, List.length_cons]
  have hpairs : classifyScores e logits categories =
      (BaselineCategory :: categories).zip (softmax e logits) := by
    rw [classifyScores]
    refine foldl_mapInsert_nodup _ [] ?_
    rw [List.nil_append, List.map_fst_zip _ _ (le_of_eq hplen.symm)]
    exact hnodup
  have hsnd : ((BaselineCategory :: categories).zip (softmax e logits)).map Prod.snd =
      softmax e logits :=
    List.map_snd_zip _ _ (le_of_eq hplen)
  constructor
  · rw [hpairs, List.length_zip, hplen, List.length_cons, min_self]
  · rw [hpairs, hsnd, softmax_sum e hpos logits (by
      intro hnil
      rw [hnil] at hlen
      simp at hlen)]
    norm_num

/-- Witness for `classify_scores_entries` with one category and a uniform
logit vector. -/
theorem classify_scores_entries_witness :
    (classifyScores (fun _ => 1) [0, 0] ["cat"]).length = 1 + 1 ∧
      |((classifyScores (fun _ => 1) [0, 0] ["cat"]).map Prod.snd).sum - 1| ≤ 1 / 1000 :=
  classify_scores_entries (fun _ => 1) [0, 0] ["cat"] (by decide) (by decide) (by decide)
    (fun x => by norm_num)

/-- Counterexample to C1 as stated: with the caller-supplied category list
`["a", "a"]` (N = 2) and the shape-contracted logits `[0, 0, 0]` — on
which the abstracted exponential agrees pointwise with `math.Exp`, since
all shifted logits are `0` — the returned Go map holds only 2 entries, not
N + 1 = 3, and its probabilities sum to 2/3, outside the 1e-3 tolerance:
the duplicate key overwrites its earlier entry. -/
theorem classify_scores_counterexample :
    ¬ ((classifyScores (fun _ => 1) [0, 0, 0] ["a", "a"]).length = 2 + 1 ∧
      |((classifyScores (fun _ => 1) [0, 0, 0] ["a", "a"]).map Prod.snd).sum - 1| ≤ 1 / 1000) := by
  intro h
  have h2 : (classifyScores (fun _ => 1) [0, 0, 0] ["a", "a"]).length = 2 := by rfl
  rw [h2] at h
  exact absurd h.1 (by norm_num)

/-! ## Preprocessing tensor shape -/

/-- Reading a three-part concatenation inside its first part. -/
lemma getD_append3_left (A B C : List ℚ) (i : Nat) (h : i < A.length) :
    (A ++ B ++ C).getD i 0 = A.getD i 0 := by
  rw [List.getD_eq_getElem?_getD, List.getD_eq_getElem?_getD,
    List.getElem?_append_left (by rw [List.length_append]; omega),
    List.getElem?_append_left h]

/-- Reading a three-part concatenation inside its middle part. -/
lemma getD_append3_mid (A B C : List ℚ) (i : Nat) (h1 : A.length ≤ i)
    (h2 : i < A.length + B.length) :
    (A ++ B ++ C).getD i 0 = B.getD (i - A.length) 0 := by
  rw [List.getD_eq_getElem?_getD, List.getD_eq_getElem?_getD,
    List.getElem?_append_left (by rw [List.length_append]; omega),
    List.getElem?_append_right h1]

/-- Reading a three-part concatenation inside its last part. -/
lemma getD_append3_right (A B C : List ℚ) (i : Nat) (h : A.length + B.length ≤ i) :
    (A ++ B ++ C).getD i 0 = C.getD (i - A.length - B.length) 0 := by
  rw [List.getD_eq_getElem?_getD, List.getD_eq_getElem?_getD,
    List.getElem?_append_right (by rw [List.length_append]; omega)]
  rw [List.length_append]
  congr 2
  omega

/-- Reading a mapped range at an in-bounds index. -/
lemma range_map_getD (f : Nat → ℚ) (n i : Nat) (h : i < n) :
    ((List.range n).map f).getD i 0 = f i := by
  rw [List.getD_eq_getElem?_getD, List.getElem?_map, List.getElem?_range h]
  rfl

/-- C7: for every decoded image, whatever its dimensions, the preprocessed
tensor has exactly 3 × 224 × 224 = 150528 entries, laid out channel-major:
entry `0·50176 + y·224 + x` is the normalized red sample of the resized
image at `(x, y)`, entry `50176 + y·224 + x` the green one, and entry
`100352 + y·224 + x` the blue one. -/
theorem preprocess_tensor_spec (img : GoImage) :
    (PreprocessTensor img).length = 150528 ∧
    ∀ x y : Nat, x < 224 → y < 224 →
      (PreprocessTensor img).getD (y * 224 + x) 0 =
        normalize (chanR (resize (centerCrop img) clipImageSize clipImageSize) x y)
          meanR stdR ∧
      (PreprocessTensor img).getD (50176 + (y * 224 + x)) 0 =
        normalize (chanG (resize (centerCrop img) clipImageSize clipImageSize) x y)
          meanG stdG ∧
      (PreprocessTensor img).getD (100352 + (y * 224 + x)) 0 =
        normalize (chanB (resize (centerCrop img) clipImageSize clipImageSize) x y)
          meanB stdB := by
  have hT : PreprocessTensor img =
      ((List.range (224 * 224)).map (fun i =>
        normalize (chanR (resize (centerCrop img) clipImageSize clipImageSize)
          (i % 224) (i / 224)) meanR stdR))
      ++ ((List.range (224 * 224)).map (fun i =>
        normalize (chanG (resize (centerCrop img) clipImageSize clipImageSize)
          (i % 224) (i / 224)) meanG stdG))
      ++ ((List.range (224 * 224)).map (fun i =>
        normalize (chanB (resize (centerCrop img) clipImageSize clipImageSize)
          (i % 224) (i / 224)) meanB stdB)) := rfl
  rw [hT]
  constructor
  · simp
  · intro x y hx hy
    have hidx : y * 224 + x < 224 * 224 := by omega
    have hmod : (y * 224 + x) % 224 = x := by omega
    have hdiv : (y * 224 + x) / 224 = y := by omega
    refine ⟨?_, ?_, ?_⟩
    · rw [getD_append3_left _ _ _ _ (by rw [List.length_map, List.length_range]; omega),
        range_map_getD _ _ _ hidx]
      rw [hmod, hdiv]
    · rw [getD_append3_mid _ _ _ _
        (by rw [List.length_map, List.length_range]; omega)
        (by rw [List.length_map, List.length_map, List.length_range]; omega)]
      rw [List.length_map, List.length_range]
      have hsub : 50176 + (y * 224 + x) - 224 * 224 = y * 224 + x := by omega
      rw [hsub, range_map_getD _ _ _ hidx, hmod, hdiv]
    · rw [getD_append3_right _ _ _ _
        (by rw [List.length_map, List.length_map, List.length_range]; omega)]
      rw [List.length_map, List.length_map, List.length_range]
      have hsub : 100352 + (y * 224 + x) - 224 * 224 - 224 * 224 = y * 224 + x := by omega
      rw [hsub, range_map_getD _ _ _ hidx, hmod, hdiv]

/-- Witness for `preprocess_tensor_spec` on a concrete 5×3 solid image at
pixel (1, 2). -/
theorem preprocess_tensor_spec_witness :
    (PreprocessTensor ⟨0, 0, 5, 3, fun _ _ => (100, 200, 300, 65535)⟩).length = 150528 ∧
      (PreprocessTensor ⟨0, 0, 5, 3, fun _ _ => (100, 200, 300, 65535)⟩).getD
          (2 * 224 + 1) 0 =
        normalize (chanR (resize (centerCrop ⟨0, 0, 5, 3, fun _ _ => (100, 200, 300, 65535)⟩)
          clipImageSize clipImageSize) 1 2) meanR stdR :=
  ⟨(preprocess_tensor_spec ⟨0, 0, 5, 3, fun _ _ => (100, 200, 300, 65535)⟩).1,
    (((preprocess_tensor_spec ⟨0, 0, 5, 3, fun _ _ => (100, 200, 300, 65535)⟩).2
      1 2 (by decide) (by decide)).1)⟩

/-! ## The best-pair scan -/

/-- Once the scan holds a candidate it never returns to none. -/
lemma findBestAux_ne_none (ranks : String × String → Option Nat) :
    ∀ (ps : List (String × String)) (b : (String × String) × Nat),
      findBestAux ranks ps (some b) ≠ none := by
  intro ps
  induction ps with
  | nil => intro b h; exact Option.noConfusion h
  | cons q ps ih =>
    intro b h
    cases hq : ranks q with
    | none =>
      simp only [findBestAux, hq] at h
      exact ih b h
    | some r =>
      simp only [findBestAux, hq] at h
      by_cases hlt : r < b.2
      · rw [if_pos hlt] at h; exact ih (q, r) h
      · rw [if_neg hlt] at h; exact ih b h

/-- The scan yields nothing exactly when no scanned pair is ranked. -/
lemma findBestAux_none_iff (ranks : String × String → Option Nat) :
    ∀ ps : List (String × String),
      findBestAux ranks ps none = none ↔ ∀ q ∈ ps, ranks q = none := by
  intro ps
  induction ps with
  | nil => simp [findBestAux]
  | cons q ps ih =>
    cases hq : ranks q with
    | none =>
      simp only [findBestAux, hq]
      rw [ih]
      constructor
      · intro h x hx
        rcases List.mem_cons.mp hx with rfl | hx₂
        · exact hq
        · exact h x hx₂
      · intro h x hx
        exact h x (List.mem_cons_of_mem _ hx)
    | some r =>
      simp only [findBestAux, hq]
      constructor
      · intro h
        exact absurd h (findBestAux_ne_none ranks ps (q, r))
      · intro h
        exact absurd (h q (List.mem_cons_self _ _)) (by simp [hq])

/-- What the scan returns, starting from an already-held candidate: a
result no worse than the candidate and than every ranked pair, and either
the candidate itself or a strictly better pair taken at its first
strictly-better occurrence. -/
lemma findBestAux_acc_spec (ranks : String × String → Option Nat) :
    ∀ (ps : List (String × String)) (p₀ : String × String) (r₀ : Nat)
      (p : String × String) (r : Nat),
      findBestAux ranks ps (some (p₀, r₀)) = some (p, r) →
      r ≤ r₀ ∧ (∀ q ∈ ps, ∀ s, ranks q = some s → r ≤ s) ∧
        ((p = p₀ ∧ r = r₀) ∨
          (r < r₀ ∧ ranks p = some r ∧
            ∃ l₁ l₂, ps = l₁ ++ p :: l₂ ∧
              ∀ q ∈ l₁, ∀ s, ranks q = some s → r < s)) := by
  intro ps
  induction ps with
  | nil =>
    intro p₀ r₀ p r h
    simp only [findBestAux, Option.some.injEq, Prod.mk.injEq] at h
    obtain ⟨hp, hr⟩ := h
    subst hp
    subst hr
    exact ⟨le_refl _, (by intro x hx; cases hx), Or.inl ⟨rfl, rfl⟩⟩
  | cons q ps ih =>
    intro p₀ r₀ p r h
    cases hq : ranks q with
    | none =>
      simp only [findBestAux, hq] at h
      obtain ⟨h1, h2, h3⟩ := ih p₀ r₀ p r h
      refine ⟨h1, ?_, ?_⟩
      · intro x hx s hs
        rcases List.mem_cons.mp hx with rfl | hx₂
        · rw [hq] at hs; exact Option.noConfusion hs
        · exact h2 x hx₂ s hs
      · rcases h3 with h3 | ⟨hlt, hrp, l₁, l₂, hsplit, hbefore⟩
        · exact Or.inl h3
        · refine Or.inr ⟨hlt, hrp, q :: l₁, l₂, by rw [hsplit, List.cons_append], ?_⟩
          intro x hx s hs
          rcases List.mem_cons.mp hx with rfl | hx₂
          · rw [hq] at hs; exact Option.noConfusion hs
          · exact hbefore x hx₂ s hs
    | some rq =>
      simp only [findBestAux, hq] at h
      by_cases hlt : rq < r₀
      · rw [if_pos hlt] at h
        obtain ⟨h1, h2, h3⟩ := ih q rq p r h
        refine ⟨le_trans h1 (le_of_lt hlt), ?_, ?_⟩
        · intro x hx s hs
          rcases List.mem_cons.mp hx with rfl | hx₂
          · rw [hq] at hs
            injection hs with hs
            exact hs ▸ h1
          · exact h2 x hx₂ s hs
        · rcases h3 with ⟨rfl, rfl⟩ | ⟨hlt2, hrp, l₁, l₂, hsplit, hbefore⟩
          · exact Or.inr ⟨hlt, hq, [], ps, rfl, by intro x hx; cases hx⟩
          · refine Or.inr ⟨lt_trans hlt2 hlt, hrp, q :: l₁, l₂, by rw [hsplit, List.cons_append], ?_⟩
            intro x hx s hs
            rcases List.mem_cons.mp hx with rfl | hx₂
            · rw [hq] at hs
              injection hs with hs
              exact hs ▸ hlt2
            · exact hbefore x hx₂ s hs
      · rw [if_neg hlt] at h
        obtain ⟨h1, h2, h3⟩ := ih p₀ r₀ p r h
        have hr0rq : r₀ ≤ rq := not_lt.mp hlt
        refine ⟨h1, ?_, ?_⟩
        · intro x hx s hs
          rcases List.mem_cons.mp hx with rfl | hx₂
          · rw [hq] at hs
            injection hs with hs
            exact hs ▸ le_trans h1 hr0rq
          · exact h2 x hx₂ s hs
        · rcases h3 with h3 | ⟨hlt2, hrp, l₁, l₂, hsplit, hbefore⟩
          · exact Or.inl h3
          · refine Or.inr ⟨hlt2, hrp, q :: l₁, l₂, by rw [hsplit, List.cons_append], ?_⟩
            intro x hx s hs
            rcases List.mem_cons.mp hx with rfl | hx₂
            · rw [hq] at hs
              injection hs with hs
              exact hs ▸ lt_of_lt_of_le hlt2 hr0rq
            · exact hbefore x hx₂ s hs

/-- What the scan returns from an empty accumulator: a ranked pair at its
first minimal occurrence, whose rank bounds every ranked pair. -/
lemma findBestAux_spec (ranks : String × String → Option Nat) :
    ∀ (ps : List (String × String)) (p : String × String) (r : Nat),
      findBestAux ranks ps none = some (p, r) →
      ranks p = some r ∧
      (∃ l₁ l₂, ps = l₁ ++ p :: l₂ ∧ ∀ q ∈ l₁, ∀ s, ranks q = some s → r < s) ∧
      (∀ q ∈ ps, ∀ s, ranks q = some s → r ≤ s) := by
  intro ps
  induction ps with
  | nil =>
    intro p r h
    simp [findBestAux] at h
  | cons q ps ih =>
    intro p r h
    cases hq : ranks q with
    | none =>
      simp only [findBestAux, hq] at h
      obtain ⟨h1, ⟨l₁, l₂, hsplit, hbefore⟩, h3⟩ := ih p r h
      refine ⟨h1, ⟨q :: l₁, l₂, by rw [hsplit, List.cons_append], ?_⟩, ?_⟩
      · intro x hx s hs
        rcases List.mem_cons.mp hx with rfl | hx₂
        · rw [hq] at hs; exact Option.noConfusion hs
        · exact hbefore x hx₂ s hs
      · intro x hx s hs
        rcases List.mem_cons.mp hx with rfl | hx₂
        · rw [hq] at hs; exact Option.noConfusion hs
        · exact h3 x hx₂ s hs
    | some rq =>
      simp only [findBestAux, hq] at h
      obtain ⟨h1, h2, h3⟩ := findBestAux_acc_spec ranks ps q rq p r h
      rcases h3 with ⟨rfl, rfl⟩ | ⟨hlt, hrp, l₁, l₂, hsplit, hbefore⟩
      · refine ⟨hq, ⟨[], ps, rfl, by intro x hx; cases hx⟩, ?_⟩
        intro x hx s hs
        rcases List.mem_cons.mp hx with rfl | hx₂
        · rw [hq] at hs
          injection hs with hs
          exact le_of_eq hs
        · exact h2 x hx₂ s hs
      · refine ⟨hrp, ⟨q :: l₁, l₂, by rw [hsplit, List.cons_append], ?_⟩, ?_⟩
        · intro x hx s hs
          rcases List.mem_cons.mp hx with rfl | hx₂
          · rw [hq] at hs
            injection hs with hs
            exact hs ▸ hlt
          · exact hbefore x hx₂ s hs
        · intro x hx s hs
          rcases List.mem_cons.mp hx with rfl | hx₂
          · rw [hq] at hs
            injection hs with hs
            exact hs ▸ le_of_lt hlt
          · exact h2 x hx₂ s hs

/-- A successful scan produces exactly the pair the spec prescribes. -/
lemma findBestPair_some (ranks : String × String → Option Nat) (w : List String)
    (p : String × String) (h : findBestPair ranks w = some p) :
    IsBestPair ranks w p := by
  rw [findBestPair] at h
  cases haux : findBestAux ranks (adjPairs w) none with
  | none => rw [haux] at h; exact Option.noConfusion h
  | some pr =>
    rw [haux] at h
    simp only [Option.map_some'] at h
    obtain ⟨h1, h2, h3⟩ := findBestAux_spec ranks (adjPairs w) pr.1 pr.2 (by rw [haux])
    injection h with h
    subst h
    exact ⟨pr.2, h1, h2, h3⟩

/-- A failed scan means no adjacent pair is in the rank table. -/
lemma findBestPair_none (ranks : String × String → Option Nat) (w : List String)
    (h : findBestPair ranks w = none) : ∀ q ∈ adjPairs w, ranks q = none := by
  rw [findBestPair] at h
  have haux : findBestAux ranks (adjPairs w) none = none := by
    cases haux : findBestAux ranks (adjPairs w) none with
    | none => rfl
    | some pr => rw [haux] at h; exact Option.noConfusion h
  exact (findBestAux_none_iff ranks (adjPairs w)).mp haux

/-- Adjacent pairs of a word with at least two symbols. -/
lemma adjPairs_cons₂ (a b : String) (rest : List String) :
    adjPairs (a :: b :: rest) = (a, b) :: adjPairs (b :: rest) := rfl

/-- The merge pass never lengthens the word. -/
lemma mergePair_length_le (p : String × String) :
    ∀ w : List String, (mergePair p w).length ≤ w.length
  | [] => le_refl _
  | [a] => le_refl _
  | a :: b :: rest => by
    simp only [mergePair]
    by_cases h : a = p.1 ∧ b = p.2
    · rw [if_pos h]
      have := mergePair_length_le p rest
      simp only [List.length_cons]
      omega
    · rw [if_neg h]
      have := mergePair_length_le p (b :: rest)
      simp only [List.length_cons] at this ⊢
      omega

/-- Merging a pair that occurs adjacently strictly shortens the word. -/
lemma mergePair_length_lt (p : String × String) :
    ∀ w : List String, p ∈ adjPairs w → (mergePair p w).length < w.length
  | [], h => absurd h (by simp [adjPairs])
  | [a], h => absurd h (by simp [adjPairs])
  | a :: b :: rest, h => by
    by_cases hab : a = p.1 ∧ b = p.2
    · simp only [mergePair, if_pos hab]
      have := mergePair_length_le p rest
      simp only [List.length_cons]
      omega
    · simp only [mergePair, if_neg hab]
      have hne : p ≠ (a, b) := by
        intro he
        exact hab ⟨by rw [he], by rw [he]⟩
      have hmem : p ∈ adjPairs (b :: rest) := by
        rw [adjPairs_cons₂] at h
        exact (List.mem_cons.mp h).resolve_left hne
      have := mergePair_length_lt p (b :: rest) hmem
      simp only [List.length_cons] at this ⊢
      omega

/-- The merge pass keeps a nonempty word nonempty. -/
lemma mergePair_length_pos (p : String × String) :
    ∀ w : List String, 0 < w.length → 0 < (mergePair p w).length
  | [], h => absurd h (by simp)
  | [a], _ => Nat.succ_pos 0
  | a :: b :: rest, _ => by
    simp only [mergePair]
    by_cases hab : a = p.1 ∧ b = p.2
    · rw [if_pos hab]; simp
    · rw [if_neg hab]; simp

/-- With enough fuel, the merge loop performs exactly a spec-conforming
merge run: only best pairs are merged, only at non-terminal words, and the
loop stops exactly at the first terminal word. -/
lemma bpeLoop_runs (ranks : String × String → Option Nat) :
    ∀ (fuel : Nat) (w : List String), 2 ≤ w.length → w.length ≤ fuel →
      MergeRun ranks w (bpeLoop ranks fuel w) := by
  intro fuel
  induction fuel with
  | zero => intro w h2 hf; omega
  | succ fuel ih =>
    intro w h2 hf
    simp only [bpeLoop]
    cases hfind : findBestPair ranks w with
    | none =>
      exact MergeRun.done w (Or.inl (findBestPair_none ranks w hfind))
    | some p =>
      dsimp only
      have hbest : IsBestPair ranks w p := findBestPair_some ranks w p hfind
      have hmem : p ∈ adjPairs w := by
        obtain ⟨r, _, ⟨l₁, l₂, hsplit, _⟩, _⟩ := hbest
        rw [hsplit]
        exact List.mem_append.mpr (Or.inr (List.mem_cons_self _ _))
      have hlt := mergePair_length_lt p w hmem
      have hnt : ¬ Terminal ranks w := by
        intro ht
        rcases ht with hall | h1
        · obtain ⟨r, hr, _, _⟩ := hbest
          rw [hall p hmem] at hr
          exact Option.noConfusion hr
        · omega
      by_cases hone : (mergePair p w).length = 1
      · rw [if_pos hone]
        exact MergeRun.step w (mergePair p w) p hnt hbest
          (MergeRun.done _ (Or.inr hone))
      · rw [if_neg hone]
        have hpos : 0 < (mergePair p w).length :=
          mergePair_length_pos p w (by omega)
        exact MergeRun.step w _ p hnt hbest
          (ih (mergePair p w) (by omega) (by omega))

/-- The initial word has one symbol per rune. -/
lemma initWord_length : ∀ cs : List Char, (initWord cs).length = cs.length
  | [] => rfl
  | [_] => rfl
  | c :: c₂ :: rest => by
    simp only [initWord, List.length_cons]
    rw [initWord_length (c₂ :: rest)]
    simp

/-- C3: on every word of two or more symbols, `bpe` performs exactly the
merge run the spec prescribes — each iteration merges the adjacent pair
with the globally lowest rank in the table (ties to the first-encountered
pair in scan order), taken only at non-terminal words, and the procedure
stops exactly when no adjacent pair has a table entry or one symbol
remains. -/
theorem bpe_merge_procedure (ranks : String × String → Option Nat) (token : List Char)
    (h2 : 2 ≤ token.length) :
    MergeRun ranks (initWord token) (bpe ranks token) := by
  have hne : ¬ token = [] := by
    intro h
    rw [h] at h2
    simp at h2
  have hlen : (initWord token).length = token.length := initWord_length token
  have hw1 : ¬ (initWord token).length = 1 := by omega
  simp only [bpe]
  rw [if_neg hne, if_neg hw1]
  exact bpeLoop_runs ranks (initWord token).length (initWord token) (by omega) (le_refl _)

/-- Witness for `bpe_merge_procedure` on the two-rune token `"ab"` with a
single merge rule. -/
theorem bpe_merge_procedure_witness :
    2 ≤ (['a', 'b'] : List Char).length ∧
      MergeRun (fun p => if p = ("a", "b</w>") then some 0 else none)
        (initWord ['a', 'b'])
        (bpe (fun p => if p = ("a", "b</w>") then some 0 else none) ['a', 'b']) :=
  ⟨by decide,
    bpe_merge_procedure (fun p => if p = ("a", "b</w>") then some 0 else none)
      ['a', 'b'] (by decide)⟩

end ImgSort
